import Mathlib

/-
Shallow embedding of the igraph double-ended queue (`dqueue.pmt`, template C).

The C structure is

    typedef struct TYPE(igraph_dqueue) {
      BASE *begin;        -- pointer to the first live element
      BASE *end;          -- pointer one past the last live element, or NULL (empty)
      BASE *stor_begin;   -- start of the allocation
      BASE *stor_end;     -- one past the end of the allocation
    } TYPE(igraph_dqueue);

We model pointers as offsets from `stor_begin`: the buffer is a `List α`
(`stor_begin` is offset 0, `stor_end` is `stor.length`), `begin` is a `Nat`
offset, and `end` is `Option Nat` with `none` standing for the NULL pointer.
`BASE` is an arbitrary element type with a zero (Calloc zero-fills, and
`igraph_dqueue_e` returns literal `0` on its error path).
-/

set_option autoImplicit false
set_option linter.unusedSectionVars false
set_option linter.unnecessarySeqFocus false

structure Dqueue (α : Type) where
  stor : List α
  begin : Nat
  end_ : Option Nat
  deriving Repr, DecidableEq

variable {α : Type} [Zero α]

/-- Error code IGRAPH_ENOMEM from igraph_error.h; IGRAPH_ERROR(msg, code) makes the
function return this code. Success is 0. -/
def IGRAPH_ENOMEM : Int := 12

/-- Semantics of `memcpy(dst + dstOff, src + srcOff, n * sizeof(BASE))` on
in-bounds ranges: overwrite `dst[dstOff .. dstOff+n)` with `src[srcOff .. srcOff+n)`. -/
def memcpy (dst : List α) (dstOff : Nat) (src : List α) (srcOff n : Nat) : List α :=
  dst.take dstOff ++ (src.drop srcOff).take n ++ dst.drop (dstOff + n)

/-- igraph_dqueue_init: `if (size <= 0) size = 1;` then Calloc `size` zeroed slots,
`begin = stor_begin`, `end = NULL`.  (Allocation success assumed; the claim about
init's failure mode is not among the claims needing a failing allocator here.) -/
def igraph_dqueue_init (size : Int) : Dqueue α :=
  let size' : Int := if size ≤ 0 then 1 else size
  { stor := List.replicate size'.toNat 0, begin := 0, end_ := none }

/-- igraph_dqueue_empty: `return q->end == NULL;` -/
def igraph_dqueue_empty (q : Dqueue α) : Bool :=
  q.end_.isNone

/-- igraph_dqueue_clear: `q->begin = q->stor_begin; q->end = NULL;` -/
def igraph_dqueue_clear (q : Dqueue α) : Dqueue α :=
  { q with begin := 0, end_ := none }

/-- igraph_dqueue_full: `return q->begin == q->end;`.  `q->begin` is a valid
pointer into the allocation, hence never NULL, so comparing it with a NULL
`q->end` yields false. -/
def igraph_dqueue_full (q : Dqueue α) : Bool :=
  match q.end_ with
  | none => false
  | some e => q.begin == e

/-- igraph_dqueue_size: 0 when `end == NULL`; `end - begin` when `begin < end`;
otherwise `(stor_end - begin) + (end - stor_begin)`. -/
def igraph_dqueue_size (q : Dqueue α) : Nat :=
  match q.end_ with
  | none => 0
  | some e => if q.begin < e then e - q.begin else q.stor.length - q.begin + e

/-- igraph_dqueue_head: `return *(q->begin);` -/
def igraph_dqueue_head (q : Dqueue α) : α :=
  q.stor.getD q.begin 0

/-- igraph_dqueue_back: `if (q->end == q->stor_begin) return *(q->stor_end-1);
return *(q->end-1);`.  With `q->end == NULL` the C code dereferences `NULL - 1`
(undefined behavior behind the non-empty precondition); that branch is modelled
as the junk value 0. -/
def igraph_dqueue_back (q : Dqueue α) : α :=
  match q.end_ with
  | none => 0
  | some e => if e = 0 then q.stor.getD (q.stor.length - 1) 0 else q.stor.getD (e - 1) 0

/-- igraph_dqueue_pop: read `*(q->begin)`, advance `begin` (wrapping from
`stor_end` to `stor_begin`), and if `begin` now equals `end` set `end = NULL`.
Returns the popped value together with the mutated queue. -/
def igraph_dqueue_pop (q : Dqueue α) : α × Dqueue α :=
  let tmp := q.stor.getD q.begin 0
  let b := q.begin + 1
  let b := if b = q.stor.length then 0 else b
  let e := if some b = q.end_ then none else q.end_
  (tmp, { q with begin := b, end_ := e })

/-- igraph_dqueue_pop_back: `if (q->end != q->stor_begin)` read `*(q->end - 1)`
and decrement `end`, else read `*(q->stor_end - 1)` and set `end = stor_end - 1`;
then if `begin == end` set `end = NULL`.  With `q->end == NULL` the C code takes
the first branch and dereferences `NULL - 1` (undefined behavior behind the
non-empty precondition); that case is modelled as returning 0 and leaving the
queue unchanged. -/
def igraph_dqueue_pop_back (q : Dqueue α) : α × Dqueue α :=
  match q.end_ with
  | none => (0, q)
  | some e =>
    let p := if e ≠ 0 then (q.stor.getD (e - 1) 0, e - 1)
             else (q.stor.getD (q.stor.length - 1) 0, q.stor.length - 1)
    let e2 := if q.begin = p.2 then none else some p.2
    (p.1, { q with end_ := e2 })

/-- igraph_dqueue_push.  `allocOk` models the outcome of the `igraph_Calloc`
call on the growth path (the non-full path allocates nothing).  Returns the C
return value (0 on success, IGRAPH_ENOMEM via IGRAPH_ERROR on allocation
failure) together with the state of `*q` when the function returns. -/
def igraph_dqueue_push (allocOk : Bool) (q : Dqueue α) (elem : α) : Int × Dqueue α :=
  if igraph_dqueue_full q = false then
    -- `if (q->begin != q->end)`: not full
    let e := match q.end_ with
      | none => q.begin          -- `if (q->end == NULL) q->end = q->begin;`
      | some e => e
    let stor := q.stor.set e elem  -- `*(q->end) = elem;`
    let e := e + 1                 -- `(q->end)++;`
    let e := if e = stor.length then 0 else e  -- wrap at stor_end
    (0, { q with stor := stor, end_ := some e })
  else
    -- full: allocate 2*(stor_end - stor_begin)+1 slots
    if allocOk = false then
      (IGRAPH_ENOMEM, q)  -- IGRAPH_ERROR("dqueue push failed", IGRAPH_ENOMEM)
    else
      let cap := q.stor.length
      let bigger : List α := List.replicate (2 * cap + 1) 0
      -- `if (q->stor_end - q->begin) memcpy(bigger, q->begin, ...);`
      let bigger := if cap - q.begin ≠ 0 then memcpy bigger 0 q.stor q.begin (cap - q.begin)
                    else bigger
      -- `if (q->end - q->stor_begin > 0) memcpy(bigger + (stor_end - begin), stor_begin, ...);`
      -- on this path `q->end == q->begin` (full), so `end - stor_begin` is `q.begin`
      let bigger := if 0 < q.begin then memcpy bigger (cap - q.begin) q.stor 0 q.begin
                    else bigger
      let e := cap                   -- `q->end = bigger + (stor_end - stor_begin);`
      let bigger := bigger.set e elem  -- `*(q->end) = elem;`
      let e := e + 1                 -- `(q->end)++;`
      let e := if e = 2 * cap + 1 then 0 else e  -- wrap at the new stor_end
      (0, { stor := bigger, begin := 0, end_ := some e })

/-- igraph_dqueue_e: random access by logical index, directly transcribing the
pointer comparisons.  When `q->end == NULL`, the comparison `q->begin + idx <
q->end` is false and `q->begin >= q->end` is true (a valid pointer compared
against NULL), which is the `none` case below. -/
def igraph_dqueue_e (q : Dqueue α) (idx : Nat) : α :=
  match q.end_ with
  | none =>
    if q.begin + idx < q.stor.length then q.stor.getD (q.begin + idx) 0
    else 0
  | some e =>
    if q.begin + idx < e ∨ (e ≤ q.begin ∧ q.begin + idx < q.stor.length) then
      q.stor.getD (q.begin + idx) 0
    else if e ≤ q.begin ∧ idx < e then
      q.stor.getD (idx - (q.stor.length - q.begin)) 0
    else 0

/-- Basic well-formedness of the pointer offsets: `begin` points into the
allocation, and so does `end` when it is not NULL.  Every state reachable
through the API satisfies this (see `reachable_valid`). -/
def Valid (q : Dqueue α) : Prop :=
  q.begin < q.stor.length ∧ q.end_.getD q.begin < q.stor.length

/-- States reachable from `igraph_dqueue_init` through the mutating operations. -/
inductive Reachable : Dqueue α → Prop
  | init (size : Int) : Reachable (igraph_dqueue_init size)
  | push (q : Dqueue α) (ok : Bool) (x : α) : Reachable q →
      Reachable (igraph_dqueue_push ok q x).2
  | pop (q : Dqueue α) : Reachable q → Reachable (igraph_dqueue_pop q).2
  | pop_back (q : Dqueue α) : Reachable q → Reachable (igraph_dqueue_pop_back q).2
  | clear (q : Dqueue α) : Reachable q → Reachable (igraph_dqueue_clear q)

/-- Push a whole sequence (with a working allocator); the Boolean records whether
every single push returned the success code 0. -/
def pushAll (q : Dqueue α) : List α → Bool × Dqueue α
  | [] => (true, q)
  | x :: xs =>
    let r := igraph_dqueue_push true q x
    let rest := pushAll r.2 xs
    ((r.1 == 0) && rest.1, rest.2)

/-- Pop `n` times, collecting the popped values in order. -/
def popN (q : Dqueue α) : Nat → List α × Dqueue α
  | 0 => ([], q)
  | Nat.succ k =>
    let r := igraph_dqueue_pop q
    let rest := popN r.2 k
    (r.1 :: rest.1, rest.2)

/-- Pop from the back `n` times, collecting the popped values in order. -/
def popBackN (q : Dqueue α) : Nat → List α × Dqueue α
  | 0 => ([], q)
  | Nat.succ k =>
    let r := igraph_dqueue_pop_back q
    let rest := popBackN r.2 k
    (r.1 :: rest.1, rest.2)

/-- Canonical shape of a queue obtained from `init` by pushes alone: the pushed
elements sit at the front of the buffer (pushing never moves `begin`, and growth
resets it to 0), the rest of the buffer is Calloc zero, and `end` is the number
of live elements reduced modulo the capacity (`none` when there are none). -/
def canon (es : List α) (cap : Nat) : Dqueue α :=
  { stor := es ++ List.replicate (cap - es.length) 0,
    begin := 0,
    end_ := if es.length = 0 then none else some (es.length % cap) }

/-- Shape of `canon es cap` after `j` of the `es.length` elements have been
popped from the front: `begin` has advanced to `j` (wrapping exactly when
`j = es.length = cap`). -/
def midPop (es : List α) (cap j : Nat) : Dqueue α :=
  { stor := es ++ List.replicate (cap - es.length) 0,
    begin := j % cap,
    end_ := if j = es.length then none else some (es.length % cap) }

/-- Shape of `canon es cap` after `j` of the `es.length` elements have been
popped from the back: `end` has retreated to `es.length - j`. -/
def midPopBack (es : List α) (cap j : Nat) : Dqueue α :=
  { stor := es ++ List.replicate (cap - es.length) 0,
    begin := 0,
    end_ := if j = es.length then none else some ((es.length - j) % cap) }

/-! ### Basic facts about the embedded operations -/

theorem valid_init (c : Int) : Valid (igraph_dqueue_init c : Dqueue α) := by
  unfold igraph_dqueue_init Valid
  constructor <;> · simp only [List.length_replicate, Option.getD_none]
                    split <;> omega

theorem length_init (c : Int) :
    (igraph_dqueue_init c : Dqueue α).stor.length = (if c ≤ 0 then 1 else c).toNat := by
  simp [igraph_dqueue_init]

/-- C4 helper and more: on a full queue with a failing allocator, push returns
IGRAPH_ENOMEM and the state it leaves behind is the input state, unchanged. -/
theorem push_alloc_fail_eq (q : Dqueue α) (x : α) (hf : igraph_dqueue_full q = true) :
    igraph_dqueue_push false q x = (IGRAPH_ENOMEM, q) := by
  unfold igraph_dqueue_push
  rw [if_neg (by simp [hf])]
  simp

/-- Computation of the first memcpy on the growth path: the tail segment
`stor[begin .. stor_end)` lands at offset 0 of the fresh zeroed buffer. -/
theorem memcpy_grow_first (l : List α) (b : Nat) (hb : b < l.length) :
    memcpy (List.replicate (2 * l.length + 1) 0) 0 l b (l.length - b) =
      l.drop b ++ List.replicate (l.length + b + 1) 0 := by
  unfold memcpy
  rw [List.take_zero, List.take_of_length_le (by simp), List.drop_replicate]
  simp only [List.nil_append, Nat.zero_add]
  have h : 2 * l.length + 1 - (l.length - b) = l.length + b + 1 := by omega
  rw [h]

/-- Computation of the second memcpy on the growth path: the head segment
`stor[0 .. end)` lands right after the first segment. -/
theorem memcpy_grow_second (l : List α) (b : Nat) (hb : b < l.length) :
    memcpy (l.drop b ++ List.replicate (l.length + b + 1) 0) (l.length - b) l 0 b =
      l.drop b ++ l.take b ++ List.replicate (l.length + 1) 0 := by
  unfold memcpy
  rw [List.drop_zero, List.take_left' (by simp)]
  have hd : (l.drop b ++ List.replicate (l.length + b + 1) 0).drop (l.length - b + b) =
      List.replicate (l.length + 1) 0 := by
    have h1 : l.length - b + b = (l.drop b).length + b := by simp
    rw [h1, List.drop_append, List.drop_replicate]
    have h2 : l.length + b + 1 - b = l.length + 1 := by omega
    rw [h2]
  rw [hd]

/-- Writing through `q->end` right after growth overwrites the first padding zero. -/
theorem set_after_copy (L : List α) (m k : Nat) (x : α) (h : L.length = m) :
    (L ++ List.replicate (k + 1) 0).set m x = L ++ x :: List.replicate k 0 := by
  rw [List.set_append, if_neg (by omega), h, Nat.sub_self, List.replicate_succ]
  rfl

/-- The growth path of push, computed out: a full valid queue is reallocated to
`2*cap+1` slots holding the two live segments in logical order at offset 0,
followed by the new element and Calloc zero padding; the cursors become
`begin = 0`, `end = cap + 1`. -/
theorem push_grow_eq (q : Dqueue α) (x : α) (hv : Valid q)
    (hf : igraph_dqueue_full q = true) :
    igraph_dqueue_push true q x =
      (0, { stor := (q.stor.drop q.begin ++ q.stor.take q.begin) ++
                      x :: List.replicate q.stor.length 0,
            begin := 0,
            end_ := some (q.stor.length + 1) }) := by
  obtain ⟨hb, -⟩ := hv
  unfold igraph_dqueue_push
  rw [if_neg (by simp [hf])]
  rw [if_neg (by simp)]
  dsimp only
  have h1 : q.stor.length - q.begin ≠ 0 := by omega
  rw [if_pos h1, memcpy_grow_first q.stor q.begin hb]
  by_cases hz : 0 < q.begin
  · rw [if_pos hz, memcpy_grow_second q.stor q.begin hb,
      set_after_copy _ _ _ _ (by simp; omega), if_neg (by omega)]
  · rw [if_neg hz]
    have hb0 : q.begin = 0 := by omega
    rw [hb0]
    have h2 : q.stor.length + 0 + 1 = q.stor.length + 1 := by omega
    rw [h2, set_after_copy _ _ _ _ (by simp), if_neg (by omega)]
    simp

/-- The non-full path of push, computed out: the element is written at the
current `end` slot (at `begin` when the queue was empty) and `end` advances by
one, wrapping at `stor_end`.  The allocator is never consulted. -/
theorem push_not_full_eq (q : Dqueue α) (x : α) (ok : Bool)
    (hf : igraph_dqueue_full q = false) :
    igraph_dqueue_push ok q x =
      (0, { q with stor := q.stor.set (q.end_.getD q.begin) x,
                   end_ := some (if q.end_.getD q.begin + 1 = q.stor.length then 0
                                 else q.end_.getD q.begin + 1) }) := by
  unfold igraph_dqueue_push
  rw [if_pos hf]
  dsimp only
  rcases hq : q.end_ with - | e <;> simp

theorem valid_push (q : Dqueue α) (ok : Bool) (x : α) (hv : Valid q) :
    Valid (igraph_dqueue_push ok q x).2 := by
  by_cases hf : igraph_dqueue_full q = true
  · cases ok
    · rw [push_alloc_fail_eq q x hf]
      exact hv
    · rw [push_grow_eq q x hv hf]
      obtain ⟨hb, -⟩ := hv
      constructor <;> simp <;> omega
  · obtain ⟨hb, he⟩ := hv
    rw [push_not_full_eq q x ok (eq_false_of_ne_true hf)]
    unfold Valid
    dsimp only
    rcases hq : q.end_ with - | e
    · rw [hq] at he
      simp only [Option.getD_none] at he ⊢
      simp only [List.length_set, Option.getD_some]
      constructor
      · exact hb
      · split <;> omega
    · rw [hq] at he
      simp only [Option.getD_some] at he ⊢
      simp only [List.length_set]
      constructor
      · exact hb
      · split <;> omega

theorem valid_pop (q : Dqueue α) (hv : Valid q) : Valid (igraph_dqueue_pop q).2 := by
  obtain ⟨hb, he⟩ := hv
  unfold igraph_dqueue_pop Valid
  dsimp only
  rcases hq : q.end_ with - | e
  · rw [hq] at he
    simp only [Option.getD_none] at he
    constructor
    · split <;> omega
    · simp only [if_neg (by simp : ¬ (some (if q.begin + 1 = q.stor.length then 0
        else q.begin + 1) = none)), Option.getD_none]
      split <;> omega
  · rw [hq] at he
    simp only [Option.getD_some] at he
    constructor
    · split <;> omega
    · by_cases heq : some (if q.begin + 1 = q.stor.length then 0 else q.begin + 1) = some e
      · rw [if_pos heq, Option.getD_none]
        split <;> omega
      · rw [if_neg heq, Option.getD_some]
        exact he

theorem valid_pop_back (q : Dqueue α) (hv : Valid q) :
    Valid (igraph_dqueue_pop_back q).2 := by
  obtain ⟨hb, he⟩ := hv
  unfold igraph_dqueue_pop_back Valid
  rcases hq : q.end_ with - | e
  · dsimp only
    exact ⟨hb, he⟩
  · rw [hq] at he
    simp only [Option.getD_some] at he
    dsimp only
    refine ⟨hb, ?_⟩
    rcases Nat.eq_zero_or_pos e with hez | hez
    · rw [hez]
      simp only [ne_eq, not_true_eq_false, if_false]
      split
      · simpa using hb
      · simp only [Option.getD_some]
        omega
    · rw [if_pos (by omega : e ≠ 0)]
      split
      · simpa using hb
      · simp only [Option.getD_some]
        omega

theorem valid_clear (q : Dqueue α) (hv : Valid q) : Valid (igraph_dqueue_clear q) := by
  obtain ⟨hb, -⟩ := hv
  exact ⟨by simpa [igraph_dqueue_clear] using Nat.lt_of_le_of_lt (Nat.zero_le _) hb,
    by simpa [igraph_dqueue_clear] using Nat.lt_of_le_of_lt (Nat.zero_le _) hb⟩

/-- Every state reachable through the API has its cursors inside the allocation. -/
theorem reachable_valid (q : Dqueue α) (hr : Reachable q) : Valid q := by
  induction hr with
  | init c => exact valid_init c
  | push q ok x _ ih => exact valid_push q ok x ih
  | pop q _ ih => exact valid_pop q ih
  | pop_back q _ ih => exact valid_pop_back q ih
  | clear q _ ih => exact valid_clear q ih

theorem getD_set_self (l : List α) (n : Nat) (x d : α) (h : n < l.length) :
    (l.set n x).getD n d = x := by
  rw [List.getD_eq_getElem _ _ (by simpa using h)]
  exact List.getElem_set_self _

theorem getD_append_length (L M : List α) (x d : α) :
    (L ++ x :: M).getD L.length d = x := by
  rw [List.getD_eq_getElem _ _ (by simp)]
  rw [List.getElem_append_right (Nat.le_refl _)]
  simp

/-! ### The claims -/

/-- C8: `init(c)` with any requested capacity `c ≤ 0` produces a deque with
effective capacity exactly 1 that is empty: `is_empty()` is true and `size()`
is 0 right after init. -/
theorem dqueue_init_nonpositive_capacity (c : Int) (hc : c ≤ 0) :
    (igraph_dqueue_init c : Dqueue α).stor.length = 1 ∧
    igraph_dqueue_empty (igraph_dqueue_init c : Dqueue α) = true ∧
    igraph_dqueue_size (igraph_dqueue_init c : Dqueue α) = 0 := by
  refine ⟨?_, rfl, rfl⟩
  rw [length_init, if_pos hc]
  rfl

theorem dqueue_init_nonpositive_capacity_witness :
    (igraph_dqueue_init 0 : Dqueue Int).stor.length = 1 ∧
    igraph_dqueue_empty (igraph_dqueue_init 0 : Dqueue Int) = true ∧
    igraph_dqueue_size (igraph_dqueue_init 0 : Dqueue Int) = 0 :=
  dqueue_init_nonpositive_capacity 0 (by decide)

/-- C4: when the growth allocation inside push fails, push returns
IGRAPH_ENOMEM and the deque it leaves behind is the input state unchanged:
same buffer (not freed, same bounds), same `begin`, same `end`, same contents. -/
theorem dqueue_push_alloc_failure_preserves_state (q : Dqueue α) (x : α)
    (hf : igraph_dqueue_full q = true) :
    igraph_dqueue_push false q x = (IGRAPH_ENOMEM, q) ∧ IGRAPH_ENOMEM ≠ 0 :=
  ⟨push_alloc_fail_eq q x hf, by decide⟩

theorem dqueue_push_alloc_failure_preserves_state_witness :
    igraph_dqueue_push false ({ stor := [5], begin := 0, end_ := some 0 } : Dqueue Int) 7 =
      (IGRAPH_ENOMEM, ({ stor := [5], begin := 0, end_ := some 0 } : Dqueue Int)) ∧
    IGRAPH_ENOMEM ≠ 0 :=
  dqueue_push_alloc_failure_preserves_state
    ({ stor := [5], begin := 0, end_ := some 0 } : Dqueue Int) 7 rfl

/-- C9: on a valid non-full deque, push always succeeds (returns 0, regardless
of whether the allocator could serve a request), the capacity is unchanged, and
the result does not depend on the allocator at all — allocation happens only on
the full-deque growth path. -/
theorem dqueue_push_not_full_no_alloc (q : Dqueue α) (x : α) (_hv : Valid q)
    (hf : igraph_dqueue_full q = false) :
    (∀ ok, (igraph_dqueue_push ok q x).1 = 0) ∧
    (∀ ok, (igraph_dqueue_push ok q x).2.stor.length = q.stor.length) ∧
    igraph_dqueue_push false q x = igraph_dqueue_push true q x := by
  refine ⟨fun ok => ?_, fun ok => ?_, ?_⟩
  · rw [push_not_full_eq q x ok hf]
  · rw [push_not_full_eq q x ok hf]
    simp
  · rw [push_not_full_eq q x false hf, push_not_full_eq q x true hf]

theorem dqueue_push_not_full_no_alloc_witness :
    (∀ ok, (igraph_dqueue_push ok ({ stor := [0, 0], begin := 0, end_ := none } : Dqueue Int) 9).1 = 0) ∧
    (∀ ok, (igraph_dqueue_push ok ({ stor := [0, 0], begin := 0, end_ := none } : Dqueue Int) 9).2.stor.length =
      ({ stor := [0, 0], begin := 0, end_ := none } : Dqueue Int).stor.length) ∧
    igraph_dqueue_push false ({ stor := [0, 0], begin := 0, end_ := none } : Dqueue Int) 9 =
      igraph_dqueue_push true ({ stor := [0, 0], begin := 0, end_ := none } : Dqueue Int) 9 :=
  dqueue_push_not_full_no_alloc ({ stor := [0, 0], begin := 0, end_ := none } : Dqueue Int) 9
    (by constructor <;> decide) rfl

/-- C6: in every reachable deque state, `is_full()` is true exactly when
`size()` equals the currently allocated capacity; in particular it is false on
an empty deque even though the full state shares the raw `begin == end` index
equality. -/
theorem dqueue_full_iff_size_eq_capacity (q : Dqueue α) (hr : Reachable q) :
    (igraph_dqueue_full q = true ↔ igraph_dqueue_size q = q.stor.length) ∧
    (igraph_dqueue_empty q = true → igraph_dqueue_full q = false) := by
  obtain ⟨hb, he⟩ := reachable_valid q hr
  unfold igraph_dqueue_full igraph_dqueue_size igraph_dqueue_empty
  rcases hq : q.end_ with - | e
  · dsimp only
    constructor
    · constructor
      · intro h
        exact absurd h (by simp)
      · intro h
        omega
    · intro h
      rfl
  · rw [hq] at he
    simp only [Option.getD_some] at he
    dsimp only
    constructor
    · rw [beq_iff_eq]
      constructor
      · intro h
        rw [if_neg (by omega)]
        omega
      · intro h
        split at h <;> omega
    · simp

theorem dqueue_full_iff_size_eq_capacity_witness :
    ((igraph_dqueue_full (igraph_dqueue_init (α := Int) 2) = true ↔
      igraph_dqueue_size (igraph_dqueue_init (α := Int) 2) =
        (igraph_dqueue_init (α := Int) 2).stor.length) ∧
    (igraph_dqueue_empty (igraph_dqueue_init (α := Int) 2) = true →
      igraph_dqueue_full (igraph_dqueue_init (α := Int) 2) = false)) :=
  dqueue_full_iff_size_eq_capacity (igraph_dqueue_init 2) (Reachable.init 2)

/-- C5, amended: on a reachable NON-EMPTY deque, indexed access with any
out-of-range index (`idx ≥ size()`) silently returns the zero value of the
element type.  (On an empty deque the claim fails: see the counterexample
`dqueue_e_out_of_range_stale_cex`, where `e` returns a stale buffer element.) -/
theorem dqueue_e_out_of_range_zero (q : Dqueue α) (idx : Nat) (hr : Reachable q)
    (hne : igraph_dqueue_empty q = false) (hidx : igraph_dqueue_size q ≤ idx) :
    igraph_dqueue_e q idx = 0 := by
  obtain ⟨hb, he⟩ := reachable_valid q hr
  unfold igraph_dqueue_e
  rcases hq : q.end_ with - | e
  · simp [igraph_dqueue_empty, hq] at hne
  · rw [hq] at he
    simp only [Option.getD_some] at he
    simp only [igraph_dqueue_size, hq] at hidx
    dsimp only
    split at hidx
    · rw [if_neg (by omega), if_neg (by omega)]
    · rw [if_neg (by omega), if_neg (by omega)]

theorem dqueue_e_out_of_range_zero_witness :
    igraph_dqueue_e (igraph_dqueue_push true (igraph_dqueue_init (α := Int) 1) 5).2 3 = 0 :=
  dqueue_e_out_of_range_zero (igraph_dqueue_push true (igraph_dqueue_init (α := Int) 1) 5).2 3
    (Reachable.push (igraph_dqueue_init 1) true 5 (Reachable.init 1)) (by decide) (by decide)

/-- C5, counterexample to the claim as stated: a reachable EMPTY deque on which
`e(0)` returns 5 — a stale element left in the buffer by earlier pushes — rather
than the zero element, even though every index is out of range on an empty
deque (`size() = 0`).  The state is built through the API: init(2), push 5,
push 7, pop, pop. -/
theorem dqueue_e_out_of_range_stale_cex :
    igraph_dqueue_empty
      (igraph_dqueue_pop (igraph_dqueue_pop (igraph_dqueue_push true
        (igraph_dqueue_push true (igraph_dqueue_init (α := Int) 2) 5).2 7).2).2).2 = true ∧
    igraph_dqueue_size
      (igraph_dqueue_pop (igraph_dqueue_pop (igraph_dqueue_push true
        (igraph_dqueue_push true (igraph_dqueue_init (α := Int) 2) 5).2 7).2).2).2 = 0 ∧
    igraph_dqueue_e
      (igraph_dqueue_pop (igraph_dqueue_pop (igraph_dqueue_push true
        (igraph_dqueue_push true (igraph_dqueue_init (α := Int) 2) 5).2 7).2).2).2 0 = 5 ∧
    (5 : Int) ≠ 0 := by
  decide

/-- C2 fails on the code (code bug): in the reachable wrapped state built by
init(3), push 10, push 20, push 30, pop, pop, push 40 — where `begin = 2`,
`end = 1`, capacity 3 and size 2 — the in-range access `e(1)` returns 0 from
the function's error branch, while the element pop would return after 1 prior
pop is 40.  The culprit is the guard `q->stor_begin + idx < q->end` of the
wrapped-segment branch, which compares the UNADJUSTED logical index against
`end` (the adjustment `idx -= stor_end - begin` happens only after the test),
so in-range indices with `idx ≥ end` fall through to `return 0`. -/
theorem dqueue_e_wrapped_guard_bug :
    igraph_dqueue_size
      ((igraph_dqueue_push true (igraph_dqueue_pop (igraph_dqueue_pop
        (igraph_dqueue_push true (igraph_dqueue_push true (igraph_dqueue_push true
          (igraph_dqueue_init (α := Int) 3) 10).2 20).2 30).2).2).2 40).2) = 2 ∧
    (igraph_dqueue_pop (igraph_dqueue_pop
      ((igraph_dqueue_push true (igraph_dqueue_pop (igraph_dqueue_pop
        (igraph_dqueue_push true (igraph_dqueue_push true (igraph_dqueue_push true
          (igraph_dqueue_init (α := Int) 3) 10).2 20).2 30).2).2).2 40).2)).2).1 = 40 ∧
    igraph_dqueue_e
      ((igraph_dqueue_push true (igraph_dqueue_pop (igraph_dqueue_pop
        (igraph_dqueue_push true (igraph_dqueue_push true (igraph_dqueue_push true
          (igraph_dqueue_init (α := Int) 3) 10).2 20).2 30).2).2).2 40).2) 1 = 0 ∧
    (0 : Int) ≠ 40 := by
  decide

theorem back_of_push_state (l : List α) (b e0 : Nat) (x : α) (he0 : e0 < l.length) :
    igraph_dqueue_back (⟨l.set e0 x, b, some (if e0 + 1 = l.length then 0 else e0 + 1)⟩ :
      Dqueue α) = x := by
  unfold igraph_dqueue_back
  dsimp only
  by_cases hw : e0 + 1 = l.length
  · rw [if_pos hw, if_pos rfl]
    simp only [List.length_set]
    rw [show l.length - 1 = e0 by omega]
    exact getD_set_self l e0 x 0 he0
  · rw [if_neg hw, if_neg (by omega)]
    rw [show e0 + 1 - 1 = e0 by omega]
    exact getD_set_self l e0 x 0 he0

theorem size_of_push_state (l : List α) (b e0 : Nat) (x : α) (hb : b < l.length)
    (he0 : e0 < l.length) :
    igraph_dqueue_size (⟨l.set e0 x, b, some (if e0 + 1 = l.length then 0 else e0 + 1)⟩ :
      Dqueue α) = (if b ≤ e0 then e0 - b else l.length - b + e0) + 1 := by
  unfold igraph_dqueue_size
  dsimp only
  simp only [List.length_set]
  by_cases hw : e0 + 1 = l.length
  · rw [if_pos hw, if_neg (by omega)]
    split <;> omega
  · rw [if_neg hw]
    by_cases hlt : b < e0 + 1
    · rw [if_pos hlt]
      split <;> omega
    · rw [if_neg hlt]
      split <;> omega

/-- C10: after any successful push of `x` on a valid deque — empty, partly
filled, or full (growing) — the deque is non-empty, `back()` returns `x`, and
`size()` has grown by exactly one. -/
theorem dqueue_push_back_size (q : Dqueue α) (x : α) (ok : Bool) (hv : Valid q)
    (hs : (igraph_dqueue_push ok q x).1 = 0) :
    igraph_dqueue_empty (igraph_dqueue_push ok q x).2 = false ∧
    igraph_dqueue_back (igraph_dqueue_push ok q x).2 = x ∧
    igraph_dqueue_size (igraph_dqueue_push ok q x).2 = igraph_dqueue_size q + 1 := by
  obtain ⟨hb, he⟩ := hv
  by_cases hf : igraph_dqueue_full q = true
  · cases ok
    · rw [push_alloc_fail_eq q x hf] at hs
      norm_num [IGRAPH_ENOMEM] at hs
    · have hsq : igraph_dqueue_size q = q.stor.length := by
        unfold igraph_dqueue_full at hf
        unfold igraph_dqueue_size
        rcases hq : q.end_ with - | e
        · rw [hq] at hf
          simp at hf
        · rw [hq] at hf
          simp only [beq_iff_eq] at hf
          rw [hq] at he
          simp only [Option.getD_some] at he
          dsimp only
          rw [if_neg (by omega)]
          omega
      rw [push_grow_eq q x ⟨hb, he⟩ hf, hsq]
      have hlen : (q.stor.drop q.begin ++ q.stor.take q.begin).length = q.stor.length := by
        simp
        omega
      refine ⟨rfl, ?_, ?_⟩
      · unfold igraph_dqueue_back
        dsimp only
        rw [if_neg (by omega)]
        rw [show q.stor.length + 1 - 1 =
          (q.stor.drop q.begin ++ q.stor.take q.begin).length by omega]
        exact getD_append_length _ _ x 0
      · unfold igraph_dqueue_size
        dsimp only
        rw [if_pos (by omega)]
        omega
  · have hf' : igraph_dqueue_full q = false := eq_false_of_ne_true hf
    rw [push_not_full_eq q x ok hf']
    rcases hq : q.end_ with - | e
    · have hsq : igraph_dqueue_size q = 0 := by
        simp [igraph_dqueue_size, hq]
      simp only [Option.getD_none]
      refine ⟨rfl, back_of_push_state q.stor q.begin q.begin x hb, ?_⟩
      rw [size_of_push_state q.stor q.begin q.begin x hb hb, hsq]
      simp
    · have hbe : q.begin ≠ e := by
        simpa [igraph_dqueue_full, hq] using hf
      rw [hq] at he
      simp only [Option.getD_some] at he
      have hsq : igraph_dqueue_size q =
          if q.begin < e then e - q.begin else q.stor.length - q.begin + e := by
        simp [igraph_dqueue_size, hq]
      simp only [Option.getD_some]
      refine ⟨rfl, back_of_push_state q.stor q.begin e x he, ?_⟩
      rw [size_of_push_state q.stor q.begin e x hb he, hsq]
      split_ifs <;> omega

theorem dqueue_push_back_size_witness :
    igraph_dqueue_empty
      (igraph_dqueue_push true ({ stor := [3, 4], begin := 1, end_ := some 1 } : Dqueue Int) 9).2 =
      false ∧
    igraph_dqueue_back
      (igraph_dqueue_push true ({ stor := [3, 4], begin := 1, end_ := some 1 } : Dqueue Int) 9).2 = 9 ∧
    igraph_dqueue_size
      (igraph_dqueue_push true ({ stor := [3, 4], begin := 1, end_ := some 1 } : Dqueue Int) 9).2 =
      igraph_dqueue_size ({ stor := [3, 4], begin := 1, end_ := some 1 } : Dqueue Int) + 1 :=
  dqueue_push_back_size ({ stor := [3, 4], begin := 1, end_ := some 1 } : Dqueue Int) 9 true
    (by constructor <;> decide) (by decide)

/-- C3: push on a full (valid) deque grows exactly as described: it builds a
new buffer of exactly `2*capacity + 1` slots whose front holds the live range
as two contiguous segments in logical order — first `stor[begin .. stor_end)`,
then `stor[stor_begin .. end)` (which is `take begin` since `end = begin` when
full) — with the remaining slots Calloc-zeroed, frees the old buffer, sets
`begin = 0` and `end = old capacity`, and then performs the ordinary non-full
push of the new element on that intermediate state. -/
theorem dqueue_push_growth_layout (q : Dqueue α) (x : α) (hv : Valid q)
    (hf : igraph_dqueue_full q = true) :
    ∃ mid : Dqueue α,
      mid.stor = (q.stor.drop q.begin ++ q.stor.take q.begin) ++
        List.replicate (q.stor.length + 1) 0 ∧
      mid.stor.length = 2 * q.stor.length + 1 ∧
      mid.begin = 0 ∧
      mid.end_ = some q.stor.length ∧
      igraph_dqueue_full mid = false ∧
      igraph_dqueue_push true q x = igraph_dqueue_push true mid x := by
  have hb := hv.1
  have hfmid : igraph_dqueue_full
      (⟨(q.stor.drop q.begin ++ q.stor.take q.begin) ++
          List.replicate (q.stor.length + 1) 0, 0, some q.stor.length⟩ : Dqueue α) = false := by
    simp [igraph_dqueue_full]
    omega
  refine ⟨_, rfl, ?_, rfl, rfl, hfmid, ?_⟩
  · simp
    omega
  · rw [push_grow_eq q x hv hf, push_not_full_eq _ x true hfmid]
    simp only [Option.getD_some]
    rw [set_after_copy _ _ _ x (by simp; omega)]
    rw [if_neg (by simp; omega)]

theorem dqueue_push_growth_layout_witness :
    ∃ mid : Dqueue Int,
      mid.stor = (([1, 2, 3] : List Int).drop 1 ++ ([1, 2, 3] : List Int).take 1) ++
        List.replicate (([1, 2, 3] : List Int).length + 1) 0 ∧
      mid.stor.length = 2 * ([1, 2, 3] : List Int).length + 1 ∧
      mid.begin = 0 ∧
      mid.end_ = some ([1, 2, 3] : List Int).length ∧
      igraph_dqueue_full mid = false ∧
      igraph_dqueue_push true ({ stor := [1, 2, 3], begin := 1, end_ := some 1 } : Dqueue Int) 9 =
        igraph_dqueue_push true mid 9 :=
  dqueue_push_growth_layout ({ stor := [1, 2, 3], begin := 1, end_ := some 1 } : Dqueue Int) 9
    (by constructor <;> decide) rfl

/-- Pushing (with a working allocator) preserves the canonical shape built by
pushes alone: the new element lands right after the previously pushed ones, and
the capacity either stays put or grows to `2*cap + 1` when the queue was full. -/
theorem push_canon (es : List α) (cap : Nat) (x : α) (hle : es.length ≤ cap)
    (hpos : 1 ≤ cap) :
    igraph_dqueue_push true (canon es cap) x =
      (0, canon (es ++ [x]) (if es.length = cap then 2 * cap + 1 else cap)) := by
  by_cases hfull : es.length = cap
  · have hne : es.length ≠ 0 := by omega
    have hcanon : (canon es cap : Dqueue α) = ⟨es, 0, some 0⟩ := by
      unfold canon
      rw [if_neg hne, hfull, Nat.mod_self, Nat.sub_self]
      simp
    rw [hcanon]
    have hv : Valid (⟨es, 0, some 0⟩ : Dqueue α) := by
      constructor <;> simp <;> omega
    have hf : igraph_dqueue_full (⟨es, 0, some 0⟩ : Dqueue α) = true := by
      simp [igraph_dqueue_full]
    rw [push_grow_eq _ x hv hf, if_pos hfull]
    unfold canon
    dsimp only
    simp only [List.drop_zero, List.take_zero, List.append_nil, List.length_append,
      List.length_singleton, Prod.mk.injEq, Dqueue.mk.injEq, true_and]
    rw [hfull]
    refine ⟨?_, ?_⟩
    · rw [show 2 * cap + 1 - (cap + 1) = cap by omega]
      simp
    · rw [if_neg (by omega), Nat.mod_eq_of_lt (by omega)]
  · have hlt : es.length < cap := by omega
    have hf : igraph_dqueue_full (canon es cap : Dqueue α) = false := by
      unfold igraph_dqueue_full canon
      dsimp only
      by_cases h0 : es.length = 0
      · rw [if_pos h0]
      · rw [if_neg h0]
        dsimp only
        rw [Nat.mod_eq_of_lt hlt, beq_eq_false_iff_ne]
        omega
    rw [push_not_full_eq _ x true hf, if_neg hfull]
    by_cases h0 : es.length = 0
    · have hes : es = [] := List.eq_nil_of_length_eq_zero h0
      subst hes
      obtain ⟨m, rfl⟩ : ∃ m, cap = m + 1 := ⟨cap - 1, by omega⟩
      unfold canon
      simp only [List.length_nil, Nat.sub_zero, List.nil_append, List.length_singleton,
        List.length_set, List.length_replicate]
      simp only [if_true]
      rw [if_neg (by omega : ¬ ((1 : Nat) = 0))]
      simp only [Option.getD_none, Prod.mk.injEq, Dqueue.mk.injEq, true_and,
        Nat.add_sub_cancel]
      refine ⟨?_, ?_⟩
      · simp [List.replicate_succ]
      · by_cases hc1 : m = 0
        · subst hc1
          simp
        · rw [if_neg (by omega : ¬ ((0 : Nat) + 1 = m + 1)),
            Nat.mod_eq_of_lt (by omega : 1 < m + 1)]
    · have hmod : es.length % cap = es.length := Nat.mod_eq_of_lt hlt
      unfold canon
      rw [if_neg h0]
      dsimp only
      simp only [Option.getD_some, hmod, List.length_set, List.length_append,
        List.length_replicate, List.length_singleton, Prod.mk.injEq,
        Dqueue.mk.injEq, true_and]
      rw [show es.length + (cap - es.length) = cap by omega]
      rw [if_neg (by omega : ¬ (es.length + 1 = 0))]
      refine ⟨?_, ?_⟩
      · rw [show cap - es.length = (cap - es.length - 1) + 1 by omega,
          set_after_copy es es.length (cap - es.length - 1) x rfl]
        rw [show cap - (es.length + 1) = cap - es.length - 1 by omega]
        simp
      · by_cases hEnd : es.length + 1 = cap
        · rw [if_pos hEnd, hEnd, Nat.mod_self]
        · rw [if_neg hEnd, Nat.mod_eq_of_lt (by omega)]

theorem init_eq_canon (c : Int) :
    (igraph_dqueue_init c : Dqueue α) = canon [] ((if c ≤ 0 then 1 else c).toNat) := by
  unfold igraph_dqueue_init canon
  simp

/-- Pushing a whole list into a canonically-shaped queue: every push succeeds
and the final state is again canonical, for some capacity that accommodates
all the elements. -/
theorem pushAll_canon (todo : List α) : ∀ (es : List α) (cap : Nat),
    es.length ≤ cap → 1 ≤ cap →
    ∃ cap2, 1 ≤ cap2 ∧ (es ++ todo).length ≤ cap2 ∧
      pushAll (canon es cap) todo = (true, canon (es ++ todo) cap2) := by
  induction todo with
  | nil =>
    intro es cap h1 h2
    exact ⟨cap, h2, by simpa using h1, by simp [pushAll]⟩
  | cons x xs ih =>
    intro es cap h1 h2
    have hp := push_canon es cap x h1 h2
    have hle1 : (es ++ [x]).length ≤ (if es.length = cap then 2 * cap + 1 else cap) := by
      simp only [List.length_append, List.length_singleton]
      split <;> omega
    have hpos1 : 1 ≤ (if es.length = cap then 2 * cap + 1 else cap) := by
      split <;> omega
    obtain ⟨cap2, hp2, hl2, heq⟩ := ih (es ++ [x]) _ hle1 hpos1
    refine ⟨cap2, hp2, by simpa using hl2, ?_⟩
    simp only [pushAll]
    rw [hp]
    dsimp only
    rw [heq]
    simp

theorem canon_eq_midPop (es : List α) (cap : Nat) : canon es cap = midPop es cap 0 := by
  unfold canon midPop
  rw [Nat.zero_mod]
  by_cases h : es.length = 0
  · rw [if_pos h, if_pos h.symm]
  · rw [if_neg h, if_neg (fun hh => h hh.symm)]

/-- One pop from the canonical mid-state: it returns the `j`-th pushed element
and advances the head cursor. -/
theorem pop_mid (es : List α) (cap j : Nat) (hcap : es.length ≤ cap) (hpos : 1 ≤ cap)
    (hj : j < es.length) :
    igraph_dqueue_pop (midPop es cap j) = (es.getD j 0, midPop es cap (j + 1)) := by
  unfold igraph_dqueue_pop midPop
  dsimp only
  have hjc : j % cap = j := Nat.mod_eq_of_lt (by omega)
  rw [hjc]
  have hlen : (es ++ List.replicate (cap - es.length) (0 : α)).length = cap := by
    simp
    omega
  rw [hlen]
  have htmp : (es ++ List.replicate (cap - es.length) (0 : α)).getD j 0 = es.getD j 0 := by
    rw [List.getD_eq_getElem _ _ (by simp; omega), List.getD_eq_getElem _ _ (by omega)]
    exact List.getElem_append_left (by omega)
  rw [htmp, if_neg (by omega : ¬ j = es.length)]
  simp only [Prod.mk.injEq, Dqueue.mk.injEq, true_and]
  by_cases hwrap : j + 1 = cap
  · have hn : es.length = cap := by omega
    rw [if_pos hwrap,
      if_pos (by rw [hn, Nat.mod_self] : some 0 = some (es.length % cap)),
      if_pos (by omega : j + 1 = es.length)]
    rw [hwrap, Nat.mod_self]
    exact ⟨rfl, rfl⟩
  · rw [if_neg hwrap]
    by_cases hdone : j + 1 = es.length
    · have hm : es.length % cap = es.length := Nat.mod_eq_of_lt (by omega)
      rw [if_pos (by rw [hm, hdone] : some (j + 1) = some (es.length % cap)),
        if_pos hdone]
      rw [Nat.mod_eq_of_lt (by omega)]
      exact ⟨rfl, rfl⟩
    · have hne : ¬ (some (j + 1) = some (es.length % cap)) := by
        simp only [Option.some.injEq]
        rcases Nat.lt_or_ge es.length cap with h | h
        · rw [Nat.mod_eq_of_lt h]
          omega
        · have hx : es.length = cap := by omega
          rw [hx, Nat.mod_self]
          omega
      rw [if_neg hne, if_neg hdone]
      rw [Nat.mod_eq_of_lt (by omega)]
      exact ⟨rfl, rfl⟩

/-- Popping all remaining elements from the canonical mid-state yields exactly
the not-yet-popped suffix, in push order, ending in the empty state. -/
theorem popN_mid (es : List α) (cap : Nat) (hcap : es.length ≤ cap) (hpos : 1 ≤ cap) :
    ∀ (k j : Nat), j + k = es.length →
      popN (midPop es cap j) k = (es.drop j, midPop es cap es.length) := by
  intro k
  induction k with
  | zero =>
    intro j hj
    have hj' : j = es.length := by omega
    subst hj'
    simp [popN, List.drop_length]
  | succ k ih =>
    intro j hj
    have hj' : j < es.length := by omega
    rw [popN, pop_mid es cap j hcap hpos hj']
    dsimp only
    rw [ih (j + 1) (by omega)]
    dsimp only
    rw [List.drop_eq_getElem_cons hj', List.getD_eq_getElem _ _ hj']

/-- C1: from a fresh init-ed deque of any requested capacity, pushing the
elements `e1..en` in order (each push returning the success code) and then
popping `n` times returns exactly `e1..en` in push order — FIFO — and leaves
the deque empty.  This covers every capacity, including ones that force one or
more growth reallocations during the pushes. -/
theorem dqueue_fifo_push_then_pop (c : Int) (es : List α) :
    (pushAll (igraph_dqueue_init c) es).1 = true ∧
    (popN (pushAll (igraph_dqueue_init c) es).2 es.length).1 = es ∧
    igraph_dqueue_empty (popN (pushAll (igraph_dqueue_init c) es).2 es.length).2 = true := by
  have hpos : 1 ≤ ((if c ≤ 0 then 1 else c).toNat) := by split <;> omega
  obtain ⟨cap2, hp2, hl2, heq⟩ := pushAll_canon es [] ((if c ≤ 0 then 1 else c).toNat)
    (by simp) hpos
  simp only [List.nil_append] at hl2 heq
  rw [init_eq_canon c, heq]
  refine ⟨rfl, ?_, ?_⟩
  · rw [canon_eq_midPop, popN_mid es cap2 hl2 hp2 es.length 0 (by omega)]
    exact List.drop_zero es
  · rw [canon_eq_midPop, popN_mid es cap2 hl2 hp2 es.length 0 (by omega)]
    simp [midPop, igraph_dqueue_empty]

theorem canon_eq_midPopBack (es : List α) (cap : Nat) :
    canon es cap = midPopBack es cap 0 := by
  unfold canon midPopBack
  rw [Nat.sub_zero]
  by_cases h : es.length = 0
  · rw [if_pos h, if_pos h.symm]
  · rw [if_neg h, if_neg (fun hh => h hh.symm)]

/-- One pop_back from the canonical mid-state: it returns the last not-yet-popped
pushed element and retreats the tail cursor (wrapping from 0 to `cap - 1` when
the queue filled the whole buffer). -/
theorem pop_back_mid (es : List α) (cap j : Nat) (hcap : es.length ≤ cap) (hpos : 1 ≤ cap)
    (hj : j < es.length) :
    igraph_dqueue_pop_back (midPopBack es cap j) =
      (es.getD (es.length - 1 - j) 0, midPopBack es cap (j + 1)) := by
  unfold igraph_dqueue_pop_back midPopBack
  dsimp only
  rw [if_neg (by omega : ¬ j = es.length)]
  dsimp only
  have hlen : (es ++ List.replicate (cap - es.length) (0 : α)).length = cap := by
    simp
    omega
  rw [hlen]
  have hget : ∀ i, i < es.length →
      (es ++ List.replicate (cap - es.length) (0 : α)).getD i 0 = es.getD i 0 := by
    intro i hi
    rw [List.getD_eq_getElem _ _ (by simp; omega), List.getD_eq_getElem _ _ hi]
    exact List.getElem_append_left hi
  by_cases hA : es.length - j = cap
  · have hj0 : j = 0 := by omega
    rw [show (es.length - j) % cap = 0 by rw [hA, Nat.mod_self]]
    rw [if_neg (by omega : ¬ ((0 : Nat) ≠ 0))]
    dsimp only
    rw [hget (cap - 1) (by omega)]
    subst hj0
    by_cases hc1 : cap = 1
    · rw [if_pos (by omega : (0 : Nat) = cap - 1), if_pos (by omega : 0 + 1 = es.length)]
      rw [show es.length - 1 - 0 = cap - 1 by omega]
    · rw [if_neg (by omega : ¬ ((0 : Nat) = cap - 1)),
        if_neg (by omega : ¬ (0 + 1 = es.length))]
      rw [show es.length - 1 - 0 = cap - 1 by omega,
        show es.length - (0 + 1) = cap - 1 by omega,
        Nat.mod_eq_of_lt (by omega : cap - 1 < cap)]
  · have hm : (es.length - j) % cap = es.length - j := Nat.mod_eq_of_lt (by omega)
    rw [hm, if_pos (by omega : es.length - j ≠ 0)]
    dsimp only
    rw [hget (es.length - j - 1) (by omega)]
    rw [show es.length - j - 1 = es.length - 1 - j by omega]
    by_cases hdone : j + 1 = es.length
    · rw [if_pos (by omega : (0 : Nat) = es.length - 1 - j), if_pos hdone]
    · rw [if_neg (by omega : ¬ ((0 : Nat) = es.length - 1 - j)), if_neg hdone]
      rw [show es.length - (j + 1) = es.length - 1 - j by omega,
        Nat.mod_eq_of_lt (by omega : es.length - 1 - j < cap)]

/-- Popping from the back all remaining elements of the canonical mid-state
yields the not-yet-popped prefix in reverse push order. -/
theorem popBackN_mid (es : List α) (cap : Nat) (hcap : es.length ≤ cap) (hpos : 1 ≤ cap) :
    ∀ (k j : Nat), j + k = es.length →
      popBackN (midPopBack es cap j) k =
        ((es.take (es.length - j)).reverse, midPopBack es cap es.length) := by
  intro k
  induction k with
  | zero =>
    intro j hj
    have hj' : j = es.length := by omega
    subst hj'
    simp [popBackN]
  | succ k ih =>
    intro j hj
    have hj' : j < es.length := by omega
    rw [popBackN, pop_back_mid es cap j hcap hpos hj']
    dsimp only
    rw [ih (j + 1) (by omega)]
    dsimp only
    rw [show es.length - (j + 1) = es.length - 1 - j by omega]
    rw [show es.length - j = (es.length - 1 - j) + 1 by omega, List.take_succ]
    rw [List.getElem?_eq_getElem (by omega : es.length - 1 - j < es.length)]
    rw [List.reverse_append, List.getD_eq_getElem _ _ (by omega : es.length - 1 - j < es.length)]
    rfl

/-- C7: from a fresh init-ed deque of any requested capacity, pushing the
elements `e1..en` in order and then calling pop_back `n` times yields
`en..e1` — the elements in reverse push order — with the tail cursor wrapping
from 0 to `capacity - 1` where needed (exercised whenever the pushes fill the
buffer exactly); the deque is empty at the end. -/
theorem dqueue_pop_back_reverse_order (c : Int) (es : List α) :
    (pushAll (igraph_dqueue_init c) es).1 = true ∧
    (popBackN (pushAll (igraph_dqueue_init c) es).2 es.length).1 = es.reverse ∧
    igraph_dqueue_empty (popBackN (pushAll (igraph_dqueue_init c) es).2 es.length).2 = true := by
  have hpos : 1 ≤ ((if c ≤ 0 then 1 else c).toNat) := by split <;> omega
  obtain ⟨cap2, hp2, hl2, heq⟩ := pushAll_canon es [] ((if c ≤ 0 then 1 else c).toNat)
    (by simp) hpos
  simp only [List.nil_append] at hl2 heq
  rw [init_eq_canon c, heq]
  refine ⟨rfl, ?_, ?_⟩
  · rw [canon_eq_midPopBack, popBackN_mid es cap2 hl2 hp2 es.length 0 (by omega)]
    rw [Nat.sub_zero, List.take_length]
  · rw [canon_eq_midPopBack, popBackN_mid es cap2 hl2 hp2 es.length 0 (by omega)]
    simp [midPopBack, igraph_dqueue_empty]
